import Mathlib

/-!
Verification of the REVO resampler core (`src/wepy/resampling/resamplers/revo.py`).

Shallow embedding conventions:

* Python floats are modelled as rationals (`ℚ`).  `np.log` (the real natural
  logarithm, used only inside the novelty function) is modelled as an abstract
  function `log : ℚ → ℚ` stored in the configuration; no property of `log` is
  assumed anywhere, which keeps every statement valid for the real logarithm.
* The configuration fields correspond to the constructor arguments of
  `REVOResampler.__init__` (lines 115-198).  `pmin`/`pmax` are stored by the
  `CloneMergeResampler` superclass (whose file is not part of this snapshot);
  the spec (§6 Configuration) records them as plain immutable fields, which is
  how they are modelled here.
* Python lists are Lean `List`s; in-place element assignment `xs[i] = v`
  becomes `xs.set i v`, and reads `xs[i]` become `xs.getD i 0` (all reads in
  the source are in range, where `getD` coincides with indexing).
* The numpy array `walker_variations` is modelled as a total function
  `ℕ → ℚ` (zero outside the walker range), updated pointwise.
* `rand.uniform(0.0, hi)` is `hi * u` for the next value `u ∈ [0,1)` of the
  underlying generator; the generator is modelled as a stream `rng : ℕ → ℚ`
  together with a cursor `rngIdx` counting how many draws were consumed.
* In `_calc_variation_loss`, the numerator of the division at line 341 is an
  `np.float64` (the `walker_variations` array originates from `np.zeros`, and
  the evaluator's only call site, line 484, passes it through), so a zero
  combined weight follows numpy's IEEE defaults — the quotient is `nan` (or
  `±inf`), a `RuntimeWarning` is emitted, and no exception is raised; such a
  pair then never wins the `v_loss < v_loss_min` comparison against the
  `np.inf` initial minimum (`nan < x` and `inf < inf` are false).  The type
  `NpFloat` models the finite/`±inf`/`nan` values this comparison can see.
  The rationals carry no signed zero; the zero denominator `wt_i + wt_j`
  of two nonnegative walker weights is IEEE `+0.0`, which is the modelled
  case.
* The one fallible operation is `decide` itself: it executes
  `new_num_walker_copies[max_idx] += 1` (line 499), which raises `TypeError`
  when `max_idx` is `None` (a Python list cannot be indexed by `None`); hence
  the loop returns `Except PyErr _`.
-/

namespace Revo

/-- The error the Python code can raise on the paths modelled here: the
`TypeError` of line 499 when a Python list is indexed with `None`. -/
inductive PyErr where
  | typeError
deriving DecidableEq, Repr, Inhabited

/-- Construction-time parameters of `REVOResampler` (`__init__`, lines
115-198).  `log` abstracts `np.log`; `lpmin` below is the precomputed
`self.lpmin = np.log(self.pmin/100)` of line 177. -/
structure RevoConfig where
  merge_dist : ℚ
  char_dist : ℚ
  dist_exponent : ℕ
  pmin : ℚ
  pmax : ℚ
  weights : Bool
  log : ℚ → ℚ

/-- `self.lpmin = np.log(self.pmin/100)` (line 177). -/
def lpmin (cfg : RevoConfig) : ℚ := cfg.log (cfg.pmin / 100)

/-- `_novelty` (lines 200-235): start from 0, overwrite when both weight and
copy count are positive, then clamp negatives to 0. -/
def novelty (cfg : RevoConfig) (walker_weight num_walker_copy : ℚ) : ℚ :=
  let novelty0 : ℚ :=
    if 0 < walker_weight ∧ 0 < num_walker_copy then
      if cfg.weights then cfg.log (walker_weight / num_walker_copy) - lpmin cfg
      else 1
    else 0
  if novelty0 < 0 then 0 else novelty0

/-- The `partial_variation` term of `_calcvariation` (lines 288-289). -/
def partialVariation (cfg : RevoConfig) (nov : ℕ → ℚ) (d : ℕ → ℕ → ℚ)
    (i j : ℕ) : ℚ :=
  ((d i j / cfg.char_dist) ^ cfg.dist_exponent) * nov i * nov j

/-- Inner loop of `_calcvariation` (lines 284-293): for a fixed `i`, walk the
indices `j`, and when `num_walker_copies[j] > 0` accumulate the partial
variation into the scalar and into `walker_variations[i]`, `walker_variations[j]`
(two sequential array writes). -/
def innerVar (cfg : RevoConfig) (nov : ℕ → ℚ) (c : List ℚ) (d : ℕ → ℕ → ℚ)
    (i : ℕ) : List ℕ → ℚ × (ℕ → ℚ) → ℚ × (ℕ → ℚ)
  | [], acc => acc
  | j :: js, acc =>
    if 0 < c.getD j 0 then
      let p := partialVariation cfg nov d i j
      let V := acc.1 + p * c.getD i 0 * c.getD j 0
      let Vi1 : ℕ → ℚ := fun k => if k = i then acc.2 i + p * c.getD j 0 else acc.2 k
      let Vi2 : ℕ → ℚ := fun k => if k = j then Vi1 j + p * c.getD i 0 else Vi1 k
      innerVar cfg nov c d i js (V, Vi2)
    else
      innerVar cfg nov c d i js acc

/-- Outer loop of `_calcvariation` (lines 281-283): iterate `i`, skipping
walkers with non-positive copy count; the inner range is `range(i+1, n)`. -/
def outerVar (cfg : RevoConfig) (nov : ℕ → ℚ) (c : List ℚ) (d : ℕ → ℕ → ℚ)
    (n : ℕ) : List ℕ → ℚ × (ℕ → ℚ) → ℚ × (ℕ → ℚ)
  | [], acc => acc
  | i :: is, acc =>
    if 0 < c.getD i 0 then
      outerVar cfg nov c d n is (innerVar cfg nov c d i (List.range' (i + 1) (n - (i + 1))) acc)
    else
      outerVar cfg nov c d n is acc

/-- `_calcvariation` (lines 237-295): novelties for every walker, then the
double loop over ordered pairs, starting from variation `0` and
`walker_variations = np.zeros(num_walkers)`. -/
def calcvariation (cfg : RevoConfig) (walker_weights num_walker_copies : List ℚ)
    (distance_matrix : ℕ → ℕ → ℚ) : ℚ × (ℕ → ℚ) :=
  let num_walkers := walker_weights.length
  let nov : ℕ → ℚ := fun i =>
    novelty cfg (walker_weights.getD i 0) (num_walker_copies.getD i 0)
  outerVar cfg nov num_walker_copies distance_matrix num_walkers
    (List.range (num_walkers - 1)) (0, fun _ => 0)

/-- The values the `v_loss < v_loss_min` comparison of line 343 can see: the
`np.float64` quotient of line 341 is finite when the combined weight is
nonzero and `±inf`/`nan` when it is zero, and `v_loss_min` starts as
`np.inf`. -/
inductive NpFloat where
  | fin (x : ℚ)
  | posInf
  | negInf
  | nan
deriving DecidableEq, Repr, Inhabited

/-- Numpy float division with a finite numerator, as at line 341: a zero
denominator (IEEE `+0.0`; the rationals carry no signed zero, matching a sum
of two nonnegative weights) yields `±inf` for a nonzero numerator and `nan`
for a zero one, with a `RuntimeWarning` and no exception. -/
def npDiv (num den : ℚ) : NpFloat :=
  if den = 0 then
    if num = 0 then .nan
    else if 0 < num then .posInf
    else .negInf
  else .fin (num / den)

/-- The IEEE `<` of line 343 on those values: `nan` compares false with
everything. -/
def npLt : NpFloat → NpFloat → Bool
  | .nan, _ => false
  | _, .nan => false
  | .negInf, .negInf => false
  | .negInf, _ => true
  | _, .negInf => false
  | .posInf, _ => false
  | .fin _, .posInf => true
  | .fin x, .fin y => if x < y then true else false

/-- The finite value of the `v_loss` expression of line 341 for the pair
`(walker_i, walker_j)`: `(wt_j * v_i + wt_i * v_j) / (wt_i + wt_j)`. -/
def pairLoss (walker_variation : ℕ → ℚ) (weights : List ℚ) (p : ℕ × ℕ) : ℚ :=
  (weights.getD p.2 0 * walker_variation p.1 + weights.getD p.1 0 * walker_variation p.2) /
    (weights.getD p.1 0 + weights.getD p.2 0)

/-- The `v_loss` of line 341 as the numpy value it is. -/
def npLoss (walker_variation : ℕ → ℚ) (weights : List ℚ) (p : ℕ × ℕ) : NpFloat :=
  npDiv (weights.getD p.2 0 * walker_variation p.1 + weights.getD p.1 0 * walker_variation p.2)
    (weights.getD p.1 0 + weights.getD p.2 0)

/-- Loop of `_calc_variation_loss` (lines 331-345): compute `v_loss` and keep
the pair iff `v_loss < v_loss_min`.  A zero-combined-weight pair has
`v_loss = nan` (for nonnegative weights), never wins the comparison, and the
loop continues without fault. -/
def lossLoop (walker_variation : ℕ → ℚ) (weights : List ℚ) :
    List (ℕ × ℕ) → NpFloat → Option (ℕ × ℕ) → Option (ℕ × ℕ)
  | [], _, best => best
  | p :: ps, v_loss_min, best =>
    if npLt (npLoss walker_variation weights p) v_loss_min then
      lossLoop walker_variation weights ps (npLoss walker_variation weights p) (some p)
    else
      lossLoop walker_variation weights ps v_loss_min best

/-- `_calc_variation_loss` (lines 298-347): `v_loss_min = np.inf`,
`min_loss_pair = ()` (the empty tuple is modelled as `none`). -/
def calc_variation_loss (walker_variation : ℕ → ℚ) (weights : List ℚ)
    (eligible_pairs : List (ℕ × ℕ)) : Option (ℕ × ℕ) :=
  lossLoop walker_variation weights eligible_pairs .posInf none

/-- `_find_eligible_merge_pairs` (lines 350-397).  `max_var_idx` may be the
Python `None` (modelled as `Option.none`); the comparisons `i != max_var_idx`
and `j != max_var_idx` are then vacuously true. -/
def find_eligible_merge_pairs (cfg : RevoConfig) (weights : List ℚ)
    (distance_matrix : ℕ → ℕ → ℚ) (max_var_idx : Option ℕ)
    (num_walker_copies : List ℚ) : List (ℕ × ℕ) :=
  (List.range (weights.length - 1)).flatMap fun i =>
    (List.range' (i + 1) (weights.length - (i + 1))).filterMap fun j =>
      if some i ≠ max_var_idx ∧ some j ≠ max_var_idx ∧
         num_walker_copies.getD i 0 = 1 ∧ num_walker_copies.getD j 0 = 1 ∧
         weights.getD i 0 + weights.getD j 0 < cfg.pmax ∧
         distance_matrix i j < cfg.merge_dist then
        some (i, j)
      else none

/-- Working state of `decide`'s optimization loop (lines 430-445):
the mutable copies of the inputs, the scratch merge groups and clone counters,
the current accepted variation and per-walker variations, the `variations`
record list, and the random-stream cursor. -/
structure DecideState where
  new_walker_weights : List ℚ
  new_num_walker_copies : List ℚ
  merge_groups : List (List ℕ)
  walker_clone_nums : List ℕ
  variation : ℚ
  walker_variations : ℕ → ℚ
  variations : List ℚ
  rngIdx : ℕ
deriving Inhabited

/-- Clone-candidate condition of lines 468-470: copies at least 1, weight per
prospective copy above `pmin`, and an empty merge group. -/
def cloneCond (cfg : RevoConfig) (st : DecideState) (i : ℕ) : Bool :=
  if 1 ≤ st.new_num_walker_copies.getD i 0 ∧
     cfg.pmin < st.new_walker_weights.getD i 0 / (st.new_num_walker_copies.getD i 0 + 1) ∧
     st.merge_groups.getD i [] = [] then
    true
  else false

/-- The `max_tups` list of lines 463-471: `(walker_variations[i], i)` for every
index satisfying the clone-candidate condition. -/
def maxTups (cfg : RevoConfig) (st : DecideState) : List (ℚ × ℕ) :=
  (List.range st.new_walker_weights.length).filterMap fun i =>
    if cloneCond cfg st i then some (st.walker_variations i, i) else none

/-- Python's `max` over a list of pairs: lexicographic maximum, keeping the
current element on ties (line 475).  `none` for the empty list (in which case
line 475 is not executed and `max_idx` stays `None`). -/
def pyMaxTup : List (ℚ × ℕ) → Option (ℚ × ℕ)
  | [] => none
  | t :: ts =>
    some (ts.foldl (fun acc x =>
      if acc.1 < x.1 ∨ (acc.1 = x.1 ∧ acc.2 < x.2) then x else acc) t)

/-- `max_idx` after lines 456-475: `None` unless `max_tups` is non-empty. -/
def maxIdx (cfg : RevoConfig) (st : DecideState) : Option ℕ :=
  (pyMaxTup (maxTups cfg st)).map Prod.snd

/-- The `pot_merge_pairs` call of lines 477-482. -/
def potMergePairs (cfg : RevoConfig) (d : ℕ → ℕ → ℚ) (st : DecideState) :
    List (ℕ × ℕ) :=
  find_eligible_merge_pairs cfg st.new_walker_weights d (maxIdx cfg st)
    st.new_num_walker_copies

/-- The `merge_pair` call of lines 484-488. -/
def mergePairResult (cfg : RevoConfig) (d : ℕ → ℕ → ℚ) (st : DecideState) :
    Option (ℕ × ℕ) :=
  calc_variation_loss st.walker_variations st.new_walker_weights
    (potMergePairs cfg d st)

/-- The speculative copy-count update of lines 496-499: fractional copies for
the merge pair, then `new_num_walker_copies[max_idx] += 1`. -/
def specCopies (st : DecideState) (min_idx closewalk m : ℕ) : List ℚ :=
  let w := st.new_walker_weights
  let tempsum := w.getD min_idx 0 + w.getD closewalk 0
  let c1 := st.new_num_walker_copies.set min_idx (w.getD min_idx 0 / tempsum)
  let c2 := c1.set closewalk (w.getD closewalk 0 / tempsum)
  c2.set m (c2.getD m 0 + 1)

/-- The accepted-move branch of lines 504-556: record the speculative
variation, draw the surviving walker (`r = rand.uniform(0, w[closewalk] +
w[min_idx])`, keep `closewalk` iff `r < w[closewalk]`), move the squashed
weight, fix the copy counts, transfer the merge group, bump the clone counter,
recompute the variation of the realized state and record it too. -/
def acceptMove (cfg : RevoConfig) (d : ℕ → ℕ → ℚ) (rng : ℕ → ℚ)
    (st : DecideState) (min_idx closewalk m : ℕ) (new_variation : ℚ) :
    DecideState :=
  let w := st.new_walker_weights
  let c3 := specCopies st min_idx closewalk m
  let r := rng st.rngIdx * (w.getD closewalk 0 + w.getD min_idx 0)
  let keep_idx := if r < w.getD closewalk 0 then closewalk else min_idx
  let squash_idx := if r < w.getD closewalk 0 then min_idx else closewalk
  let w2 := (w.set keep_idx (w.getD keep_idx 0 + w.getD squash_idx 0)).set squash_idx 0
  let c5 := (c3.set squash_idx 0).set keep_idx 1
  let g1 := st.merge_groups.set keep_idx
    (st.merge_groups.getD keep_idx [] ++ [squash_idx] ++ st.merge_groups.getD squash_idx [])
  let g2 := g1.set squash_idx []
  let k1 := st.walker_clone_nums.set m (st.walker_clone_nums.getD m 0 + 1)
  let res2 := calcvariation cfg w2 c5 d
  { new_walker_weights := w2
    new_num_walker_copies := c5
    merge_groups := g2
    walker_clone_nums := k1
    variation := new_variation
    walker_variations := res2.2
    variations := (st.variations ++ [new_variation]) ++ [res2.1]
    rngIdx := st.rngIdx + 1 }

/-- Lines 496-562 once a merge pair was selected and `max_idx` is an index
`m`: build the speculative copies, recompute the variation, and either accept
(lines 504-556, loop stays productive) or roll the copy counts back
(lines 558-562, loop will halt). -/
def acceptOrReject (cfg : RevoConfig) (d : ℕ → ℕ → ℚ) (rng : ℕ → ℚ)
    (st : DecideState) (min_idx closewalk m : ℕ) :
    DecideState × Bool :=
  let c3 := specCopies st min_idx closewalk m
  let res := calcvariation cfg st.new_walker_weights c3 d
  if st.variation < res.1 then
    (acceptMove cfg d rng st min_idx closewalk m res.1, true)
  else
    let c5 := (c3.set min_idx 1).set closewalk 1
    ({ st with
        new_num_walker_copies := c5.set m (c5.getD m 0 - 1)
        walker_variations := res.2 }, false)

/-- One pass of the `while productive` loop of lines 451-562.  Returns the
updated state together with the `productive` flag, or the `TypeError` of
line 499 when a merge pair exists but `max_idx` is `None`. -/
def decideStep (cfg : RevoConfig) (d : ℕ → ℕ → ℚ) (rng : ℕ → ℚ)
    (st : DecideState) : Except PyErr (DecideState × Bool) :=
  match mergePairResult cfg d st with
  | none => .ok (st, false)
  | some (min_idx, closewalk) =>
    match maxIdx cfg st with
    | none => .error .typeError
    | some m => .ok (acceptOrReject cfg d rng st min_idx closewalk m)

/-- The `while productive` loop.  `fuel` bounds the number of passes: every
accepted move turns the copy count of the squashed walker from 1 to 0 for
good, so at most `num_walkers` passes are productive and
`num_walkers + 1` passes are ever executed; `decide` below supplies that
bound, hence the `fuel = 0` case is unreachable from `decide`. -/
def decideLoop (cfg : RevoConfig) (d : ℕ → ℕ → ℚ) (rng : ℕ → ℚ) :
    ℕ → DecideState → Except PyErr DecideState
  | 0, st => .ok st
  | fuel + 1, st =>
    match decideStep cfg d rng st with
    | .error e => .error e
    | .ok (st', false) => .ok st'
    | .ok (st', true) => decideLoop cfg d rng fuel st'

/-- The state just before the loop (lines 430-445): working copies of the
inputs, empty merge groups, zero clone counters, the initial variation pass,
and `variations = [variation]`. -/
def decideInit (cfg : RevoConfig) (walker_weights num_walker_copies : List ℚ)
    (distance_matrix : ℕ → ℕ → ℚ) : DecideState :=
  let res := calcvariation cfg walker_weights num_walker_copies distance_matrix
  { new_walker_weights := walker_weights
    new_num_walker_copies := num_walker_copies
    merge_groups := List.replicate walker_weights.length []
    walker_clone_nums := List.replicate walker_weights.length 0
    variation := res.1
    walker_variations := res.2
    variations := [res.1]
    rngIdx := 0 }

/-- `decide` (lines 400-576).  The decision records are
`assign_clones(merge_groups, walker_clone_nums)` decorated with step and
walker indices; `assign_clones` lives in the `CloneMergeResampler` superclass
(outside this snapshot), so the returned state exposes `merge_groups` and
`walker_clone_nums`, the exact data those records are computed from, and the
second component is `variations[-1]` (line 576). -/
def decide (cfg : RevoConfig) (walker_weights num_walker_copies : List ℚ)
    (distance_matrix : ℕ → ℕ → ℚ) (rng : ℕ → ℚ) :
    Except PyErr (DecideState × ℚ) :=
  match decideLoop cfg distance_matrix rng (walker_weights.length + 1)
      (decideInit cfg walker_weights num_walker_copies distance_matrix) with
  | .error e => .error e
  | .ok st => .ok (st, st.variations.getLast?.getD 0)

/-! ### Concrete instances used in counterexamples and witnesses -/

/-- Weight novelty disabled (a supported configuration, line 149-153), so the
variation values are exact rationals. -/
def cfgA : RevoConfig :=
  { merge_dist := 1/2, char_dist := 1, dist_exponent := 4,
    pmin := 1/1000, pmax := 1/10, weights := false, log := fun _ => 0 }

/-- Symmetric distance matrix on three walkers: walkers 0 and 1 coincide with
each other and with walker 2 except that `d 1 2 = d 2 1 = 1`. -/
def dA : ℕ → ℕ → ℚ := fun i j =>
  if (i = 1 ∧ j = 2) ∨ (i = 2 ∧ j = 1) then 1 else 0

def wA : List ℚ := [1/100, 1/25, 19/20]

/-- A generator stream whose every `random()` draw is `0.9`. -/
def rngA : ℕ → ℚ := fun _ => 9/10

/-- Large `pmin`, so that no walker qualifies as a clone candidate. -/
def cfgB : RevoConfig :=
  { merge_dist := 1, char_dist := 1, dist_exponent := 4,
    pmin := 3/10, pmax := 1/2, weights := false, log := fun _ => 0 }

/-- All distances zero (identical walkers). -/
def dB : ℕ → ℕ → ℚ := fun _ _ => 0

/-- Same ensemble as `wA` with the first two weights swapped, which turns the
proposed move into a rejected one. -/
def wC : List ℚ := [1/25, 1/100, 19/20]

/-- Weight novelty enabled with an abstract logarithm instantiated as `id`. -/
def cfgC : RevoConfig :=
  { merge_dist := 1, char_dist := 1, dist_exponent := 4,
    pmin := 1, pmax := 1/10, weights := true, log := id }

/-- Weight novelty enabled with a small `pmin`, so that all three walkers of
`stW` qualify as clone candidates. -/
def cfgW : RevoConfig :=
  { merge_dist := 1, char_dist := 1, dist_exponent := 4,
    pmin := 1/100, pmax := 1/10, weights := true, log := id }

/-- A loop state with a tie in the walker variations between indices 0 and 1. -/
def stW : DecideState :=
  { new_walker_weights := [1/2, 1/4, 1/4]
    new_num_walker_copies := [1, 1, 1]
    merge_groups := [[], [], []]
    walker_clone_nums := [0, 0, 0]
    variation := 0
    walker_variations := fun i => if i ≤ 1 then 1 else 0
    variations := [0]
    rngIdx := 0 }

/-! ### The merge-eligibility filter -/

/-- Membership characterization of `_find_eligible_merge_pairs`: the loops of
lines 389-390 enumerate exactly the ordered pairs `i < j < len(weights)` and
lines 391-394 keep exactly those passing the four guards. -/
theorem mem_find_eligible_merge_pairs {cfg : RevoConfig} {w : List ℚ}
    {d : ℕ → ℕ → ℚ} {mvi : Option ℕ} {c : List ℚ} {i j : ℕ} :
    (i, j) ∈ find_eligible_merge_pairs cfg w d mvi c ↔
      i < j ∧ j < w.length ∧ some i ≠ mvi ∧ some j ≠ mvi ∧
      c.getD i 0 = 1 ∧ c.getD j 0 = 1 ∧
      w.getD i 0 + w.getD j 0 < cfg.pmax ∧ d i j < cfg.merge_dist := by
  unfold find_eligible_merge_pairs
  simp only [List.mem_flatMap, List.mem_filterMap, List.mem_range, List.mem_range'_1]
  constructor
  · rintro ⟨a, ha, b, hb, hab⟩
    split at hab
    · rename_i hcond
      simp only [Option.some_inj, Prod.mk.injEq] at hab
      obtain ⟨rfl, rfl⟩ := hab
      exact ⟨by omega, by omega, hcond.1, hcond.2.1, hcond.2.2.1, hcond.2.2.2.1,
        hcond.2.2.2.2.1, hcond.2.2.2.2.2⟩
    · exact absurd hab (by simp)
  · rintro ⟨hij, hj, h1, h2, h3, h4, h5, h6⟩
    refine ⟨i, by omega, j, by omega, ?_⟩
    rw [if_pos ⟨h1, h2, h3, h4, h5, h6⟩]

/-- C4: a pair `(i,j)` with `i<j` is produced by the merge-eligibility filter
iff neither index is the excluded one, both copy counts are exactly 1, the
combined weight is strictly below `pmax` and the distance strictly below
`merge_dist`; boundary pairs (combined weight `= pmax`, or distance
`= merge_dist`) are never eligible because both comparisons are strict. -/
theorem find_eligible_merge_pairs_spec (cfg : RevoConfig) (w : List ℚ)
    (d : ℕ → ℕ → ℚ) (e : ℕ) (c : List ℚ) (i j : ℕ)
    (hij : i < j) (hj : j < w.length) :
    (i, j) ∈ find_eligible_merge_pairs cfg w d (some e) c ↔
      (i ≠ e ∧ j ≠ e ∧ c.getD i 0 = 1 ∧ c.getD j 0 = 1 ∧
       w.getD i 0 + w.getD j 0 < cfg.pmax ∧ d i j < cfg.merge_dist) := by
  rw [mem_find_eligible_merge_pairs]
  simp [hij, hj, and_assoc]

theorem find_eligible_merge_pairs_spec_witness :
    (0 : ℕ) < 1 ∧ (1 : ℕ) < 3 ∧
    ((0, 1) ∈ find_eligible_merge_pairs cfgA wA dA (some 2) [1, 1, 1] ↔
      (0 ≠ 2 ∧ 1 ≠ 2 ∧ ([1, 1, 1] : List ℚ).getD 0 0 = 1 ∧
       ([1, 1, 1] : List ℚ).getD 1 0 = 1 ∧
       wA.getD 0 0 + wA.getD 1 0 < cfgA.pmax ∧ dA 0 1 < cfgA.merge_dist)) :=
  ⟨by decide, by decide,
    find_eligible_merge_pairs_spec cfgA wA dA 2 [1, 1, 1] 0 1 (by decide) (by decide)⟩

/-! ### The merge-loss evaluator -/

theorem npLt_nan_left (v : NpFloat) : npLt .nan v = false := by
  cases v <;> rfl

theorem npLt_fin_posInf (x : ℚ) : npLt (.fin x) .posInf = true := rfl

theorem npLt_fin_fin (x y : ℚ) : npLt (.fin x) (.fin y) = true ↔ x < y := by
  unfold npLt
  split <;> simp_all

/-- The loss loop returns the running best or one of the remaining pairs. -/
theorem lossLoop_mem {Vi : ℕ → ℚ} {w : List ℚ} :
    ∀ (ps : List (ℕ × ℕ)) (vmin : NpFloat) (best r : Option (ℕ × ℕ)),
      lossLoop Vi w ps vmin best = r →
      r = best ∨ ∃ p ∈ ps, r = some p := by
  intro ps
  induction ps with
  | nil =>
    intro vmin best r h
    simp only [lossLoop] at h
    exact Or.inl h.symm
  | cons p ps ih =>
    intro vmin best r h
    simp only [lossLoop] at h
    split at h
    · rcases ih _ _ _ h with h' | ⟨q, hq, hq'⟩
      · exact Or.inr ⟨p, List.mem_cons_self _ _, h'⟩
      · exact Or.inr ⟨q, List.mem_cons_of_mem _ hq, hq'⟩
    · rcases ih _ _ _ h with h' | ⟨q, hq, hq'⟩
      · exact Or.inl h'
      · exact Or.inr ⟨q, List.mem_cons_of_mem _ hq, hq'⟩

/-- Relation between the running minimum and the running best pair inside
`_calc_variation_loss`: once a pair is held, the minimum is its finite loss. -/
def MinInv (Vi : ℕ → ℚ) (w : List ℚ) (vmin : NpFloat) (best : Option (ℕ × ℕ)) : Prop :=
  (vmin = .posInf ∧ best = none) ∨
  (∃ p, best = some p ∧ w.getD p.1 0 + w.getD p.2 0 ≠ 0 ∧
    vmin = .fin (pairLoss Vi w p))

/-- With nonnegative weights, a zero combined weight zeroes both weights and
hence the numerator of line 341, so numpy computes `0.0/0.0 = nan`. -/
theorem npLoss_nan {Vi : ℕ → ℚ} {w : List ℚ} {p : ℕ × ℕ}
    (h1 : 0 ≤ w.getD p.1 0) (h2 : 0 ≤ w.getD p.2 0)
    (hden : w.getD p.1 0 + w.getD p.2 0 = 0) :
    npLoss Vi w p = .nan := by
  have hz1 : w.getD p.1 0 = 0 := by linarith
  have hz2 : w.getD p.2 0 = 0 := by linarith
  unfold npLoss npDiv
  rw [hz1, hz2]
  simp

/-- With a nonzero combined weight, line 341 computes the finite loss. -/
theorem npLoss_fin {Vi : ℕ → ℚ} {w : List ℚ} {p : ℕ × ℕ}
    (hden : w.getD p.1 0 + w.getD p.2 0 ≠ 0) :
    npLoss Vi w p = .fin (pairLoss Vi w p) := by
  unfold npLoss npDiv pairLoss
  rw [if_neg hden]

/-- Full functional specification of the loss loop over nonnegative weights:
a zero-combined-weight pair is skipped (its loss is `nan`), any returned pair
has nonzero combined weight and minimizes the loss among such pairs, and a
`none` result means no pair with nonzero combined weight remained. -/
theorem lossLoop_spec {Vi : ℕ → ℚ} {w : List ℚ} :
    ∀ (ps : List (ℕ × ℕ)) (vmin : NpFloat) (best : Option (ℕ × ℕ)),
      (∀ p ∈ ps, 0 ≤ w.getD p.1 0 ∧ 0 ≤ w.getD p.2 0) →
      MinInv Vi w vmin best →
      (∀ p, lossLoop Vi w ps vmin best = some p →
        w.getD p.1 0 + w.getD p.2 0 ≠ 0 ∧
        (∀ q ∈ ps, w.getD q.1 0 + w.getD q.2 0 ≠ 0 →
          pairLoss Vi w p ≤ pairLoss Vi w q) ∧
        (∀ m, vmin = .fin m → pairLoss Vi w p ≤ m)) ∧
      (lossLoop Vi w ps vmin best = none →
        best = none ∧ ∀ q ∈ ps, w.getD q.1 0 + w.getD q.2 0 = 0) := by
  intro ps
  induction ps with
  | nil =>
    intro vmin best hw hinv
    constructor
    · intro p hp
      simp only [lossLoop] at hp
      rcases hinv with ⟨h1, h2⟩ | ⟨p', hp', hd', hm'⟩
      · exact absurd (h2 ▸ hp) (by simp)
      · rw [hp'] at hp
        injection hp with hp
        subst hp
        refine ⟨hd', fun q hq => absurd hq (List.not_mem_nil q), ?_⟩
        intro m hm
        rw [hm'] at hm
        injection hm with hm
        exact le_of_eq hm
    · intro hp
      simp only [lossLoop] at hp
      exact ⟨hp, by simp⟩
  | cons q ps ih =>
    intro vmin best hw hinv
    have hwq := hw q (List.mem_cons_self _ _)
    have hwps : ∀ p ∈ ps, 0 ≤ w.getD p.1 0 ∧ 0 ≤ w.getD p.2 0 :=
      fun p hp => hw p (List.mem_cons_of_mem _ hp)
    by_cases hden : w.getD q.1 0 + w.getD q.2 0 = 0
    · have hnan : npLoss Vi w q = .nan := npLoss_nan hwq.1 hwq.2 hden
      have hcond : ¬ (npLt (npLoss Vi w q) vmin = true) := by
        rw [hnan, npLt_nan_left]
        simp
      simp only [lossLoop]
      rw [if_neg hcond]
      obtain ⟨ihp, ihn⟩ := ih vmin best hwps hinv
      constructor
      · intro p hp
        obtain ⟨hd, hmin, hvb⟩ := ihp p hp
        refine ⟨hd, ?_, hvb⟩
        intro q' hq' hdq'
        rcases List.mem_cons.mp hq' with rfl | hq''
        · exact absurd hden hdq'
        · exact hmin q' hq'' hdq'
      · intro hp
        obtain ⟨hb, hall⟩ := ihn hp
        refine ⟨hb, ?_⟩
        intro q' hq'
        rcases List.mem_cons.mp hq' with rfl | hq''
        · exact hden
        · exact hall q' hq''
    · have hfin : npLoss Vi w q = .fin (pairLoss Vi w q) := npLoss_fin hden
      by_cases hlt : npLt (npLoss Vi w q) vmin = true
      · simp only [lossLoop]
        rw [if_pos hlt, hfin]
        have hinv' : MinInv Vi w (.fin (pairLoss Vi w q)) (some q) :=
          Or.inr ⟨q, rfl, hden, rfl⟩
        obtain ⟨ihp, ihn⟩ := ih _ _ hwps hinv'
        constructor
        · intro p hp
          obtain ⟨hd, hmin, hvb⟩ := ihp p hp
          have hpq : pairLoss Vi w p ≤ pairLoss Vi w q := hvb _ rfl
          refine ⟨hd, ?_, ?_⟩
          · intro q' hq' hdq'
            rcases List.mem_cons.mp hq' with rfl | hq''
            · exact hpq
            · exact hmin q' hq'' hdq'
          · intro m hm
            subst hm
            rw [hfin] at hlt
            have hlm := (npLt_fin_fin _ _).mp hlt
            exact le_of_lt (lt_of_le_of_lt hpq hlm)
        · intro hp
          obtain ⟨hb, -⟩ := ihn hp
          exact absurd hb (by simp)
      · simp only [lossLoop]
        rw [if_neg hlt]
        rcases hinv with ⟨hv, hb⟩ | ⟨p', hb', hd', hv'⟩
        · rw [hv, hfin] at hlt
          exact absurd (npLt_fin_posInf _) hlt
        · have hge : pairLoss Vi w p' ≤ pairLoss Vi w q := by
            refine le_of_not_lt fun hc => hlt ?_
            rw [hv', hfin]
            exact (npLt_fin_fin _ _).mpr hc
          obtain ⟨ihp, ihn⟩ := ih vmin best hwps (Or.inr ⟨p', hb', hd', hv'⟩)
          constructor
          · intro p hp
            obtain ⟨hd, hmin, hvb⟩ := ihp p hp
            refine ⟨hd, ?_, hvb⟩
            intro q' hq' hdq'
            rcases List.mem_cons.mp hq' with rfl | hq''
            · exact le_trans (hvb _ hv') hge
            · exact hmin q' hq'' hdq'
          · intro hp
            obtain ⟨hb, -⟩ := ihn hp
            rw [hb] at hb'
            exact absurd hb' (by simp)

/-- C5: `_calc_variation_loss` returns the empty tuple when given no pairs
and otherwise one of the given pairs minimizing
`loss(i,j) = (w_j·Vi_i + w_i·Vi_j)/(w_i + w_j)`; it never selects a pair
whose combined weight is zero: such a pair's loss evaluates to `nan` under
numpy semantics and loses every `<` comparison, so the pair is defensively
skipped and no arithmetic fault propagates (the evaluator is a total
function).  Walker weights are nonnegative (spec §3: weight ∈ [0,1]). -/
theorem calc_variation_loss_spec (Vi : ℕ → ℚ) (w : List ℚ)
    (pairs : List (ℕ × ℕ))
    (hw : ∀ p ∈ pairs, 0 ≤ w.getD p.1 0 ∧ 0 ≤ w.getD p.2 0) :
    (pairs = [] → calc_variation_loss Vi w pairs = none) ∧
    (∀ p, calc_variation_loss Vi w pairs = some p →
      p ∈ pairs ∧ w.getD p.1 0 + w.getD p.2 0 ≠ 0 ∧
      ∀ q ∈ pairs, w.getD q.1 0 + w.getD q.2 0 ≠ 0 →
        pairLoss Vi w p ≤ pairLoss Vi w q) ∧
    ((∃ q ∈ pairs, w.getD q.1 0 + w.getD q.2 0 ≠ 0) →
      ∃ p, calc_variation_loss Vi w pairs = some p) := by
  obtain ⟨hsome, hnone⟩ :=
    lossLoop_spec pairs .posInf none hw (Or.inl ⟨rfl, rfl⟩)
  refine ⟨?_, ?_, ?_⟩
  · rintro rfl
    rfl
  · intro p hp
    obtain ⟨hd, hmin, -⟩ := hsome p hp
    have hmem : p ∈ pairs := by
      rcases lossLoop_mem pairs .posInf none (some p) hp with h | ⟨p', hp', hpp⟩
      · exact absurd h (by simp)
      · injection hpp with hpp
        exact hpp ▸ hp'
    exact ⟨hmem, hd, hmin⟩
  · rintro ⟨q, hq, hdq⟩
    cases hcal : calc_variation_loss Vi w pairs with
    | some p => exact ⟨p, rfl⟩
    | none =>
      obtain ⟨-, hall⟩ := hnone hcal
      exact absurd (hall q hq) hdq

theorem calc_variation_loss_spec_witness :
    (∀ p ∈ [((0 : ℕ), (1 : ℕ)), (1, 2)],
      (0 : ℚ) ≤ ([1/2, 1/4, 1/4] : List ℚ).getD p.1 0 ∧
      (0 : ℚ) ≤ ([1/2, 1/4, 1/4] : List ℚ).getD p.2 0) ∧
    (([((0 : ℕ), (1 : ℕ)), (1, 2)] = ([] : List (ℕ × ℕ)) →
        calc_variation_loss (fun i => (i : ℚ)) [1/2, 1/4, 1/4] [(0, 1), (1, 2)] = none) ∧
      (∀ p, calc_variation_loss (fun i => (i : ℚ)) [1/2, 1/4, 1/4] [(0, 1), (1, 2)] = some p →
        p ∈ [((0 : ℕ), (1 : ℕ)), (1, 2)] ∧
        ([1/2, 1/4, 1/4] : List ℚ).getD p.1 0 + ([1/2, 1/4, 1/4] : List ℚ).getD p.2 0 ≠ 0 ∧
        ∀ q ∈ [((0 : ℕ), (1 : ℕ)), (1, 2)],
          ([1/2, 1/4, 1/4] : List ℚ).getD q.1 0 + ([1/2, 1/4, 1/4] : List ℚ).getD q.2 0 ≠ 0 →
            pairLoss (fun i => (i : ℚ)) [1/2, 1/4, 1/4] p ≤
              pairLoss (fun i => (i : ℚ)) [1/2, 1/4, 1/4] q) ∧
      ((∃ q ∈ [((0 : ℕ), (1 : ℕ)), (1, 2)],
          ([1/2, 1/4, 1/4] : List ℚ).getD q.1 0 + ([1/2, 1/4, 1/4] : List ℚ).getD q.2 0 ≠ 0) →
        ∃ p, calc_variation_loss (fun i => (i : ℚ)) [1/2, 1/4, 1/4] [(0, 1), (1, 2)] = some p)) :=
  ⟨by with_unfolding_all decide,
    calc_variation_loss_spec (fun i => (i : ℚ)) [1/2, 1/4, 1/4] [(0, 1), (1, 2)]
      (by with_unfolding_all decide)⟩

/-! ### The novelty function -/

/-- `_novelty` with the intermediate assignments flattened. -/
theorem novelty_eq (cfg : RevoConfig) (w n : ℚ) :
    novelty cfg w n =
      if (if 0 < w ∧ 0 < n then
            (if cfg.weights = true then cfg.log (w / n) - lpmin cfg else 1)
          else 0) < 0 then 0
      else
        (if 0 < w ∧ 0 < n then
          (if cfg.weights = true then cfg.log (w / n) - lpmin cfg else 1)
        else 0) := rfl

/-- C6: the novelty is 0 on non-positive weight or copy count; with the
weight-novelty flag it is `max 0 (ln(w/n) − ln(pmin/100))`, without it it is 1;
and it is never negative.  Stated for every abstract logarithm, hence valid
for `np.log`. -/
theorem novelty_spec (cfg : RevoConfig) (w n : ℚ) :
    (w ≤ 0 ∨ n ≤ 0 → novelty cfg w n = 0) ∧
    (0 < w → 0 < n → cfg.weights = true →
      novelty cfg w n = max 0 (cfg.log (w / n) - cfg.log (cfg.pmin / 100))) ∧
    (0 < w → 0 < n → cfg.weights = false → novelty cfg w n = 1) ∧
    0 ≤ novelty cfg w n := by
  refine ⟨?_, ?_, ?_, ?_⟩
  · intro h
    have hcond : ¬(0 < w ∧ 0 < n) := by
      rcases h with h | h
      · exact fun hc => absurd hc.1 (not_lt.mpr h)
      · exact fun hc => absurd hc.2 (not_lt.mpr h)
    rw [novelty_eq, if_neg hcond]
    rcases lt_or_le (0 : ℚ) 0 with h | h
    · rw [if_pos h]
    · rw [if_neg (not_lt.mpr h)]
  · intro hw hn hweights
    rw [novelty_eq, if_pos (And.intro hw hn), if_pos hweights]
    show (if cfg.log (w / n) - lpmin cfg < 0 then (0:ℚ) else cfg.log (w / n) - lpmin cfg) = _
    unfold lpmin
    rcases lt_or_le (cfg.log (w / n) - cfg.log (cfg.pmin / 100)) 0 with h | h
    · rw [if_pos h]
      exact (max_eq_left (le_of_lt h)).symm
    · rw [if_neg (not_lt.mpr h)]
      exact (max_eq_right h).symm
  · intro hw hn hweights
    rw [novelty_eq, if_pos (And.intro hw hn), hweights]
    norm_num
  · rw [novelty_eq]
    rcases lt_or_le (if 0 < w ∧ 0 < n then
        (if cfg.weights = true then cfg.log (w / n) - lpmin cfg else 1) else 0) 0 with h | h
    · rw [if_pos h]
    · rw [if_neg (not_lt.mpr h)]
      exact h

theorem novelty_spec_witness :
    (0 : ℚ) < 2 ∧ (0 : ℚ) < 1 ∧ cfgC.weights = true ∧
    novelty cfgC 2 1 = max 0 (cfgC.log (2 / 1) - cfgC.log (cfgC.pmin / 100)) :=
  ⟨by norm_num, by norm_num, rfl,
    (novelty_spec cfgC 2 1).2.1 (by norm_num) (by norm_num) rfl⟩

/-! ### The clone-candidate selection -/

/-- Lexicographic "not above" relation used to describe Python's tuple `max`. -/
def LexLe (x t : ℚ × ℕ) : Prop :=
  x.1 < t.1 ∨ (x.1 = t.1 ∧ x.2 ≤ t.2)

theorem lexLe_refl {x : ℚ × ℕ} : LexLe x x := Or.inr ⟨Eq.refl x.1, le_refl x.2⟩

theorem lexLe_trans {x y z : ℚ × ℕ} (h1 : LexLe x y) (h2 : LexLe y z) :
    LexLe x z := by
  rcases h1 with h1 | ⟨h1, h1'⟩ <;> rcases h2 with h2 | ⟨h2, h2'⟩
  · exact Or.inl (lt_trans h1 h2)
  · exact Or.inl (h2 ▸ h1)
  · exact Or.inl (h1 ▸ h2)
  · exact Or.inr ⟨h1.trans h2, le_trans h1' h2'⟩

/-- The fold implementing Python's `max` returns the seed or a list element. -/
theorem pyFold_mem :
    ∀ (ts : List (ℚ × ℕ)) (t : ℚ × ℕ),
      (ts.foldl (fun acc x =>
        if acc.1 < x.1 ∨ (acc.1 = x.1 ∧ acc.2 < x.2) then x else acc) t) = t ∨
      (ts.foldl (fun acc x =>
        if acc.1 < x.1 ∨ (acc.1 = x.1 ∧ acc.2 < x.2) then x else acc) t) ∈ ts := by
  intro ts
  induction ts with
  | nil => exact fun t => Or.inl rfl
  | cons x ts ih =>
    intro t
    simp only [List.foldl_cons]
    rcases ih (if t.1 < x.1 ∨ (t.1 = x.1 ∧ t.2 < x.2) then x else t) with h | h
    · rw [h]
      split
      · exact Or.inr (List.mem_cons_self _ _)
      · exact Or.inl rfl
    · exact Or.inr (List.mem_cons_of_mem _ h)

/-- The fold implementing Python's `max` dominates the seed and every element
in the lexicographic order (ties favour the maximum of the indices). -/
theorem pyFold_ge :
    ∀ (ts : List (ℚ × ℕ)) (t : ℚ × ℕ),
      LexLe t (ts.foldl (fun acc x =>
        if acc.1 < x.1 ∨ (acc.1 = x.1 ∧ acc.2 < x.2) then x else acc) t) ∧
      ∀ x ∈ ts, LexLe x (ts.foldl (fun acc x =>
        if acc.1 < x.1 ∨ (acc.1 = x.1 ∧ acc.2 < x.2) then x else acc) t) := by
  intro ts
  induction ts with
  | nil => exact fun t => ⟨lexLe_refl, by simp⟩
  | cons x ts ih =>
    intro t
    simp only [List.foldl_cons]
    obtain ⟨h1, h2⟩ := ih (if t.1 < x.1 ∨ (t.1 = x.1 ∧ t.2 < x.2) then x else t)
    have hstep_t : LexLe t (if t.1 < x.1 ∨ (t.1 = x.1 ∧ t.2 < x.2) then x else t) := by
      split
      · rename_i h
        rcases h with h | ⟨h, h'⟩
        · exact Or.inl h
        · exact Or.inr ⟨h, le_of_lt h'⟩
      · exact lexLe_refl
    have hstep_x : LexLe x (if t.1 < x.1 ∨ (t.1 = x.1 ∧ t.2 < x.2) then x else t) := by
      split
      · exact lexLe_refl
      · rename_i h
        push_neg at h
        obtain ⟨ha, hb⟩ := h
        rcases lt_or_le x.1 t.1 with h' | h'
        · exact Or.inl h'
        · have heq : t.1 = x.1 := le_antisymm h' ha
          exact Or.inr ⟨heq.symm, hb heq⟩
    refine ⟨lexLe_trans hstep_t h1, ?_⟩
    intro y hy
    rcases List.mem_cons.mp hy with rfl | hy'
    · exact lexLe_trans hstep_x h1
    · exact h2 y hy'

/-- Membership in `max_tups`: exactly the indices below the walker count that
satisfy the clone-candidate condition, paired with their variation value. -/
theorem mem_maxTups {cfg : RevoConfig} {st : DecideState} {v : ℚ} {i : ℕ} :
    (v, i) ∈ maxTups cfg st ↔
      i < st.new_walker_weights.length ∧ cloneCond cfg st i = true ∧
      v = st.walker_variations i := by
  unfold maxTups
  simp only [List.mem_filterMap, List.mem_range]
  constructor
  · rintro ⟨a, ha, hfa⟩
    split at hfa
    · rename_i hcond
      simp only [Option.some_inj, Prod.mk.injEq] at hfa
      obtain ⟨rfl, rfl⟩ := hfa
      exact ⟨ha, hcond, rfl⟩
    · exact absurd hfa (by simp)
  · rintro ⟨hi, hcond, rfl⟩
    exact ⟨i, hi, by rw [if_pos hcond]⟩

/-- The result of `pyMaxTup` is a member of its input dominating every
member. -/
theorem pyMaxTup_spec {l : List (ℚ × ℕ)} {t : ℚ × ℕ}
    (h : pyMaxTup l = some t) : t ∈ l ∧ ∀ x ∈ l, LexLe x t := by
  match l with
  | [] => exact absurd h (by simp [pyMaxTup])
  | t₀ :: ts =>
    simp only [pyMaxTup, Option.some_inj] at h
    subst h
    obtain ⟨h1, h2⟩ := pyFold_ge ts t₀
    constructor
    · rcases pyFold_mem ts t₀ with h | h
      · rw [h]
        exact List.mem_cons_self _ _
      · exact List.mem_cons_of_mem _ h
    · intro x hx
      rcases List.mem_cons.mp hx with rfl | hx'
      · exact h1
      · exact h2 x hx'

/-- C8: when lines 463-475 produce a candidate `(v, m)`, the index `m`
satisfies the three qualifying conditions (copies ≥ 1, weight per prospective
copy above `pmin`, empty merge group), `v` is its walker variation, and every
qualifying index has a strictly smaller variation or the same variation and a
smaller-or-equal index (Python tuple `max` breaks variation ties towards the
larger index). -/
theorem clone_candidate_spec (cfg : RevoConfig) (st : DecideState) (v : ℚ) (m : ℕ)
    (h : pyMaxTup (maxTups cfg st) = some (v, m)) :
    (m < st.new_walker_weights.length ∧ cloneCond cfg st m = true ∧
      v = st.walker_variations m) ∧
    ∀ i, i < st.new_walker_weights.length → cloneCond cfg st i = true →
      st.walker_variations i < st.walker_variations m ∨
      (st.walker_variations i = st.walker_variations m ∧ i ≤ m) := by
  obtain ⟨hmem, hdom⟩ := pyMaxTup_spec h
  obtain ⟨hm, hcond, hv⟩ := mem_maxTups.mp hmem
  refine ⟨⟨hm, hcond, hv⟩, ?_⟩
  intro i hi hci
  have : LexLe (st.walker_variations i, i) (v, m) :=
    hdom _ (mem_maxTups.mpr ⟨hi, hci, rfl⟩)
  rcases this with h' | ⟨h', h''⟩
  · exact Or.inl (hv ▸ h')
  · exact Or.inr ⟨hv ▸ h', h''⟩

theorem clone_candidate_spec_witness :
    pyMaxTup (maxTups cfgW stW) = some (1, 1) ∧
    ((1 < stW.new_walker_weights.length ∧ cloneCond cfgW stW 1 = true ∧
       (1 : ℚ) = stW.walker_variations 1) ∧
     ∀ i, i < stW.new_walker_weights.length → cloneCond cfgW stW i = true →
       stW.walker_variations i < stW.walker_variations 1 ∨
       (stW.walker_variations i = stW.walker_variations 1 ∧ i ≤ 1)) :=
  ⟨by with_unfolding_all decide,
    clone_candidate_spec cfgW stW 1 1 (by with_unfolding_all decide)⟩

/-! ### Determinism -/

/-- C9: `decide` is a pure function of the configuration, the ensemble and the
random stream; the stream is fully determined by the seed installed at
construction (`rand.seed(seed)`, lines 192-195), here abstracted as an
arbitrary seed-to-stream map.  Two runs with equal seeds and equal inputs
return equal outputs — in particular equal merge groups and clone counters
(the data the decision records are computed from) and equal variation
traces. -/
theorem decide_deterministic (rngOfSeed : ℤ → ℕ → ℚ) (cfg₁ cfg₂ : RevoConfig)
    (w₁ w₂ c₁ c₂ : List ℚ) (d₁ d₂ : ℕ → ℕ → ℚ) (s₁ s₂ : ℤ)
    (hcfg : cfg₁ = cfg₂) (hw : w₁ = w₂) (hc : c₁ = c₂) (hd : d₁ = d₂)
    (hs : s₁ = s₂) :
    decide cfg₁ w₁ c₁ d₁ (rngOfSeed s₁) = decide cfg₂ w₂ c₂ d₂ (rngOfSeed s₂) ∧
    (decide cfg₁ w₁ c₁ d₁ (rngOfSeed s₁)).map
        (fun p => (p.1.merge_groups, p.1.walker_clone_nums, p.1.variations)) =
      (decide cfg₂ w₂ c₂ d₂ (rngOfSeed s₂)).map
        (fun p => (p.1.merge_groups, p.1.walker_clone_nums, p.1.variations)) := by
  subst hcfg hw hc hd hs
  exact ⟨rfl, rfl⟩

theorem decide_deterministic_witness :
    decide cfgA wA [1, 1, 1] dA ((fun _ : ℤ => rngA) 7) =
      decide cfgA wA [1, 1, 1] dA ((fun _ : ℤ => rngA) 7) ∧
    (decide cfgA wA [1, 1, 1] dA ((fun _ : ℤ => rngA) 7)).map
        (fun p => (p.1.merge_groups, p.1.walker_clone_nums, p.1.variations)) =
      (decide cfgA wA [1, 1, 1] dA ((fun _ : ℤ => rngA) 7)).map
        (fun p => (p.1.merge_groups, p.1.walker_clone_nums, p.1.variations)) :=
  decide_deterministic (fun _ => rngA) cfgA cfgA wA wA [1, 1, 1] [1, 1, 1]
    dA dA 7 7 rfl rfl rfl rfl rfl

/-! ### The missing-candidate fault -/

/-- C2: with two walkers too light to qualify as clone candidates
(`w/(copies+1) = 1/20 ≤ pmin = 3/10`) but eligible and selected as a merge
pair, `max_idx` is `None`; the eligibility filter indeed excluded nothing, yet
the pass does not complete: line 499 executes
`new_num_walker_copies[None] += 1` and raises `TypeError`. -/
theorem decide_none_candidate_type_error :
    decide cfgB [1/10, 1/10] [1, 1] dB rngA = Except.error PyErr.typeError := by
  with_unfolding_all rfl

/-! ### List helpers -/

theorem getD_set_ne {α : Type} (d₀ : α) (l : List α) (idx k : ℕ) (a : α)
    (h : idx ≠ k) : (l.set idx a).getD k d₀ = l.getD k d₀ := by
  simp [List.getD_eq_getElem?_getD, List.getElem?_set, h]

theorem getD_set_self {α : Type} (d₀ : α) (l : List α) (idx : ℕ) (a : α)
    (h : idx < l.length) : (l.set idx a).getD idx d₀ = a := by
  simp [List.getD_eq_getElem?_getD, List.getElem?_set, h]

theorem ext_getD {α : Type} (d₀ : α) {l₁ l₂ : List α} (hlen : l₁.length = l₂.length)
    (h : ∀ k, l₁.getD k d₀ = l₂.getD k d₀) : l₁ = l₂ := by
  refine List.ext_getElem hlen ?_
  intro n h1 h2
  have hn := h n
  rwa [List.getD_eq_getElem _ _ h1, List.getD_eq_getElem _ _ h2] at hn

theorem sum_map_set {α : Type} (f : α → ℕ) :
    ∀ (l : List α) (i : ℕ) (a : α), i < l.length →
      ((l.set i a).map f).sum + f (l.getD i a) = (l.map f).sum + f a := by
  intro l
  induction l with
  | nil => intro i a h; simp at h
  | cons x xs ih =>
    intro i a h
    cases i with
    | zero => simp [List.set]; omega
    | succ i =>
      have hi : i < xs.length := by simpa using h
      have := ih i a hi
      simp only [List.set, List.map, List.sum_cons, List.getD_cons_succ]
      omega

theorem sum_set_nat :
    ∀ (l : List ℕ) (i : ℕ) (a : ℕ), i < l.length →
      (l.set i a).sum + l.getD i a = l.sum + a := by
  intro l
  induction l with
  | nil => intro i a h; simp at h
  | cons x xs ih =>
    intro i a h
    cases i with
    | zero => simp [List.set]; omega
    | succ i =>
      have hi : i < xs.length := by simpa using h
      have := ih i a hi
      simp only [List.set, List.sum_cons, List.getD_cons_succ]
      omega

/-! ### Facts about one loop pass -/

/-- A pair returned by the loss evaluator belongs to the candidate pairs. -/
theorem mergePairResult_mem {cfg : RevoConfig} {d : ℕ → ℕ → ℚ} {st : DecideState}
    {i j : ℕ} (h : mergePairResult cfg d st = some (i, j)) :
    (i, j) ∈ potMergePairs cfg d st := by
  unfold mergePairResult calc_variation_loss at h
  rcases lossLoop_mem _ _ _ _ h with h' | ⟨p, hp, hp'⟩
  · exact absurd h' (by simp)
  · injection hp' with hp'
    exact hp' ▸ hp

/-- The clone-candidate index is below the walker count. -/
theorem maxIdx_lt {cfg : RevoConfig} {st : DecideState} {m : ℕ}
    (h : maxIdx cfg st = some m) : m < st.new_walker_weights.length := by
  unfold maxIdx at h
  cases hp : pyMaxTup (maxTups cfg st) with
  | none => rw [hp] at h; exact absurd h (by simp)
  | some t =>
    rw [hp] at h
    simp only [Option.map_some', Option.some_inj] at h
    obtain ⟨hmem, _⟩ := pyMaxTup_spec hp
    have := mem_maxTups.mp (show (t.1, t.2) ∈ maxTups cfg st from hmem)
    exact h ▸ this.1

/-- C1 (amended core): one loop pass never decreases the accepted variation
(the value `variation` that each proposal is compared against). -/
theorem decideStep_variation_mono {cfg : RevoConfig} {d : ℕ → ℕ → ℚ}
    {rng : ℕ → ℚ} {st st' : DecideState} {cont : Bool}
    (h : decideStep cfg d rng st = .ok (st', cont)) :
    st.variation ≤ st'.variation := by
  unfold decideStep at h
  cases hmp : mergePairResult cfg d st with
  | none =>
    rw [hmp] at h
    injection h with h
    simp only [Prod.mk.injEq] at h
    exact h.1 ▸ le_refl _
  | some p =>
    obtain ⟨i, j⟩ := p
    rw [hmp] at h
    cases hmx : maxIdx cfg st with
    | none => rw [hmx] at h; exact absurd h (by simp)
    | some m =>
      rw [hmx] at h
      injection h with h
      unfold acceptOrReject at h
      by_cases hacc : st.variation <
          (calcvariation cfg st.new_walker_weights (specCopies st i j m) d).1
      · rw [if_pos hacc] at h
        simp only [Prod.mk.injEq] at h
        rw [← h.1]
        exact le_of_lt hacc
      · rw [if_neg hacc] at h
        simp only [Prod.mk.injEq] at h
        rw [← h.1]

/-- Loop version of the accepted-variation monotonicity, for any fuel. -/
theorem decideLoop_variation_mono {cfg : RevoConfig} {d : ℕ → ℕ → ℚ}
    {rng : ℕ → ℚ} :
    ∀ (fuel : ℕ) (st st' : DecideState),
      decideLoop cfg d rng fuel st = .ok st' → st.variation ≤ st'.variation := by
  intro fuel
  induction fuel with
  | zero =>
    intro st st' h
    simp only [decideLoop] at h
    injection h with h
    exact h ▸ le_refl _
  | succ fuel ih =>
    intro st st' h
    simp only [decideLoop] at h
    cases hstep : decideStep cfg d rng st with
    | error e => rw [hstep] at h; exact absurd h (by simp)
    | ok p =>
      obtain ⟨st₁, cont⟩ := p
      rw [hstep] at h
      cases cont with
      | false =>
        injection h with h
        exact h ▸ decideStep_variation_mono hstep
      | true =>
        exact le_trans (decideStep_variation_mono hstep) (ih _ _ h)

/-- C1 (amended): when `decide` finishes normally, the accepted variation of
the final loop state is at least the initial variation computed from the
input.  (The returned `variations[-1]` is the post-realization recomputation
of line 551, which can drop below the initial value.) -/
theorem decide_accepted_variation_ge_initial (cfg : RevoConfig)
    (w c : List ℚ) (d : ℕ → ℕ → ℚ) (rng : ℕ → ℚ) (st : DecideState) (vfin : ℚ)
    (h : decide cfg w c d rng = .ok (st, vfin)) :
    (calcvariation cfg w c d).1 ≤ st.variation := by
  unfold decide at h
  cases hl : decideLoop cfg d rng (w.length + 1) (decideInit cfg w c d) with
  | error e => rw [hl] at h; exact absurd h (by simp)
  | ok st₁ =>
    rw [hl] at h
    injection h with h
    simp only [Prod.mk.injEq] at h
    rw [← h.1]
    exact decideLoop_variation_mono _ _ _ hl

theorem decide_accepted_variation_ge_initial_witness :
    (calcvariation cfgA wA [1, 1, 1] dA).1 ≤
      ((decide cfgA wA [1, 1, 1] dA rngA).toOption.getD default).1.variation :=
  decide_accepted_variation_ge_initial cfgA wA [1, 1, 1] dA rngA _ _
    (by with_unfolding_all rfl)

/-- C1 counterexample: on `wA` with distance matrix `dA` the recorded
variation trace is `[1, 8/5, 0]` — the accepted move raises the variation from
1 to 8/5, but the post-realization recomputation recorded next is 0 — and
`decide` returns final variation 0, strictly below the initial variation 1. -/
theorem decide_final_lt_initial_cx :
    (decide cfgA wA [1, 1, 1] dA rngA).map (fun p => (p.1.variations, p.2)) =
      Except.ok ([1, 8/5, 0], 0) ∧
    (calcvariation cfgA wA [1, 1, 1] dA).1 = 1 ∧
    ¬ ((1 : ℚ) ≤ 0) :=
  ⟨by with_unfolding_all rfl, by with_unfolding_all rfl, by norm_num⟩

/-! ### Rollback of rejected moves -/

/-- C3: when a pass selects clone candidate `m` and merge pair `(i, j)` but
the speculative variation does not strictly exceed the current one, the pass
restores the copy counts exactly (the pair back to 1 and 1, the candidate
decremented), leaves weights, merge groups and clone counters untouched, and
reports the loop unproductive; only the scratch `walker_variations` array
keeps the value recomputed at line 502. -/
theorem decide_reject_rollback (cfg : RevoConfig) (d : ℕ → ℕ → ℚ)
    (rng : ℕ → ℚ) (st : DecideState) (v : ℚ) (m i j : ℕ)
    (hlen : st.new_num_walker_copies.length = st.new_walker_weights.length)
    (hmax : pyMaxTup (maxTups cfg st) = some (v, m))
    (hpair : calc_variation_loss st.walker_variations st.new_walker_weights
        (find_eligible_merge_pairs cfg st.new_walker_weights d (some m)
          st.new_num_walker_copies) = some (i, j))
    (hrej : (calcvariation cfg st.new_walker_weights (specCopies st i j m) d).1 ≤
      st.variation) :
    ∃ Vi', decideStep cfg d rng st = .ok ({ st with walker_variations := Vi' }, false) := by
  have hmx : maxIdx cfg st = some m := by
    unfold maxIdx
    rw [hmax]
    rfl
  have hmp : mergePairResult cfg d st = some (i, j) := by
    unfold mergePairResult potMergePairs
    rw [hmx]
    exact hpair
  have hmem := mergePairResult_mem hmp
  unfold potMergePairs at hmem
  rw [hmx] at hmem
  obtain ⟨hij, hjn, him, hjm, hci, hcj, -, -⟩ := mem_find_eligible_merge_pairs.mp hmem
  have him' : i ≠ m := fun he => him (he ▸ rfl)
  have hjm' : j ≠ m := fun he => hjm (he ▸ rfl)
  have hmn : m < st.new_num_walker_copies.length :=
    hlen ▸ maxIdx_lt hmx
  have hin : i < st.new_num_walker_copies.length := by omega
  have hjn' : j < st.new_num_walker_copies.length := by omega
  have hijne : i ≠ j := Nat.ne_of_lt hij
  -- the rolled-back copy list is the original one
  have hc : (((specCopies st i j m).set i 1).set j 1).set m
      ((((specCopies st i j m).set i 1).set j 1).getD m 0 - 1) =
      st.new_num_walker_copies := by
    have hc3m : (specCopies st i j m).getD m 0 =
        st.new_num_walker_copies.getD m 0 + 1 := by
      simp only [specCopies]
      rw [getD_set_self _ _ _ _ (by simpa using hmn),
        getD_set_ne _ _ _ _ _ hjm', getD_set_ne _ _ _ _ _ him']
    have hc5m : (((specCopies st i j m).set i 1).set j 1).getD m 0 =
        st.new_num_walker_copies.getD m 0 + 1 := by
      rw [getD_set_ne _ _ _ _ _ hjm', getD_set_ne _ _ _ _ _ him', hc3m]
    refine ext_getD 0 (by simp [specCopies]) ?_
    intro k
    by_cases hkm : m = k
    · subst hkm
      rw [getD_set_self _ _ _ _ (by simpa [specCopies] using hmn), hc5m]
      ring
    · rw [getD_set_ne _ _ _ _ _ hkm]
      by_cases hkj : j = k
      · subst hkj
        rw [getD_set_self _ _ _ _ (by simpa [specCopies] using hjn')]
        exact hcj.symm
      · rw [getD_set_ne _ _ _ _ _ hkj]
        by_cases hki : i = k
        · subst hki
          rw [getD_set_self _ _ _ _ (by simpa [specCopies] using hin)]
          exact hci.symm
        · rw [getD_set_ne _ _ _ _ _ hki]
          simp only [specCopies]
          rw [getD_set_ne _ _ _ _ _ hkm, getD_set_ne _ _ _ _ _ hkj,
            getD_set_ne _ _ _ _ _ hki]
  refine ⟨(calcvariation cfg st.new_walker_weights (specCopies st i j m) d).2, ?_⟩
  unfold decideStep
  rw [hmp, hmx]
  show Except.ok (acceptOrReject cfg d rng st i j m) = _
  simp only [acceptOrReject]
  rw [if_neg (not_lt.mpr hrej), hc]

/-- A concrete rejected move: with the first two weights of `wA` swapped the
speculative variation drops from 1 to 2/5, so the move of candidate 2 and
pair (0, 1) is rejected and rolled back. -/
def stC : DecideState := decideInit cfgA wC [1, 1, 1] dA

theorem decide_reject_rollback_witness :
    stC.new_num_walker_copies.length = stC.new_walker_weights.length ∧
    ∃ Vi', decideStep cfgA dA rngA stC = .ok ({ stC with walker_variations := Vi' }, false) :=
  ⟨by with_unfolding_all decide,
    decide_reject_rollback cfgA dA rngA stC 1 2 0 1
      (by with_unfolding_all decide)
      (by with_unfolding_all decide)
      (by with_unfolding_all rfl)
      (by with_unfolding_all decide)⟩

/-! ### Merge-group / clone-count balance -/

/-- Scratch-state well-formedness: the bookkeeping lists track one entry per
walker. -/
def StateWf (st : DecideState) : Prop :=
  st.merge_groups.length = st.new_walker_weights.length ∧
  st.walker_clone_nums.length = st.new_walker_weights.length

/-- The invariant of C10: in total the merge groups hold exactly as many
squashed walker indices as clones were counted. -/
def groupCloneBalanced (st : DecideState) : Prop :=
  (st.merge_groups.map List.length).sum = st.walker_clone_nums.sum

/-- An accepted move adds exactly one index to the merge groups (the squashed
walker; the squashed walker's own group is transferred, not duplicated) and
one clone to the clone counters. -/
theorem acceptMove_balance {cfg : RevoConfig} {d : ℕ → ℕ → ℚ} {rng : ℕ → ℚ}
    {st : DecideState} {i j m : ℕ} (nv : ℚ)
    (hwf : StateWf st) (hbal : groupCloneBalanced st)
    (hij : i ≠ j) (hi : i < st.new_walker_weights.length)
    (hj : j < st.new_walker_weights.length)
    (hm : m < st.new_walker_weights.length) :
    StateWf (acceptMove cfg d rng st i j m nv) ∧
    groupCloneBalanced (acceptMove cfg d rng st i j m nv) := by
  obtain ⟨hg, hk⟩ := hwf
  have hbalance : ∀ keep squash : ℕ, keep ≠ squash →
      keep < st.merge_groups.length → squash < st.merge_groups.length →
      (((st.merge_groups.set keep
          (st.merge_groups.getD keep [] ++ [squash] ++ st.merge_groups.getD squash [])).set
            squash []).map List.length).sum =
        (st.walker_clone_nums.set m (st.walker_clone_nums.getD m 0 + 1)).sum := by
    intro keep squash hks hkeep hsquash
    have h1 := sum_map_set List.length st.merge_groups keep
      (st.merge_groups.getD keep [] ++ [squash] ++ st.merge_groups.getD squash [])
      hkeep
    have h2 := sum_map_set List.length
      (st.merge_groups.set keep
        (st.merge_groups.getD keep [] ++ [squash] ++ st.merge_groups.getD squash []))
      squash [] (by simpa using hsquash)
    have h3 := sum_set_nat st.walker_clone_nums m
      (st.walker_clone_nums.getD m 0 + 1) (by omega)
    have hmk : m < st.walker_clone_nums.length := by omega
    have hgd1 : ∀ (a : List ℕ), st.merge_groups.getD keep a = st.merge_groups.getD keep [] :=
      fun a => (List.getD_eq_getElem _ _ hkeep).trans (List.getD_eq_getElem _ _ hkeep).symm
    have hgd2 : ∀ (a : List ℕ),
        (st.merge_groups.set keep
          (st.merge_groups.getD keep [] ++ [squash] ++ st.merge_groups.getD squash [])).getD
            squash a = st.merge_groups.getD squash a := by
      intro a
      exact getD_set_ne _ _ _ _ _ hks
    have hgd3 : ∀ (a b : List ℕ),
        st.merge_groups.getD squash a = st.merge_groups.getD squash b :=
      fun a b => (List.getD_eq_getElem _ _ hsquash).trans (List.getD_eq_getElem _ _ hsquash).symm
    have hkd : ∀ (a : ℕ), st.walker_clone_nums.getD m a = st.walker_clone_nums.getD m 0 :=
      fun a => (List.getD_eq_getElem _ _ hmk).trans (List.getD_eq_getElem _ _ hmk).symm
    rw [hgd1 (st.merge_groups.getD keep [] ++ [squash] ++ st.merge_groups.getD squash [])] at h1
    rw [hgd2 [], hgd3 [] []] at h2
    rw [hkd (st.walker_clone_nums.getD m 0 + 1)] at h3
    simp only [List.length_append, List.length_cons, List.length_nil] at h1 h2
    have hS := hbal
    unfold groupCloneBalanced at hS
    omega
  unfold acceptMove
  constructor
  · constructor
    · simp [List.length_set, hg]
    · simp [List.length_set, hk]
  · unfold groupCloneBalanced
    show (((st.merge_groups.set _ _).set _ []).map List.length).sum = _
    split
    · exact hbalance j i (Ne.symm hij) (hg ▸ hj) (hg ▸ hi)
    · exact hbalance i j hij (hg ▸ hi) (hg ▸ hj)

/-- One pass preserves well-formedness and the group/clone balance. -/
theorem decideStep_preserves_balance {cfg : RevoConfig} {d : ℕ → ℕ → ℚ}
    {rng : ℕ → ℚ} {st st' : DecideState} {cont : Bool}
    (hwf : StateWf st) (hbal : groupCloneBalanced st)
    (h : decideStep cfg d rng st = .ok (st', cont)) :
    StateWf st' ∧ groupCloneBalanced st' := by
  unfold decideStep at h
  cases hmp : mergePairResult cfg d st with
  | none =>
    rw [hmp] at h
    injection h with h
    simp only [Prod.mk.injEq] at h
    exact h.1 ▸ ⟨hwf, hbal⟩
  | some p =>
    obtain ⟨i, j⟩ := p
    rw [hmp] at h
    cases hmx : maxIdx cfg st with
    | none => rw [hmx] at h; exact absurd h (by simp)
    | some m =>
      rw [hmx] at h
      injection h with h
      have hmem := mergePairResult_mem hmp
      unfold potMergePairs at hmem
      rw [hmx] at hmem
      obtain ⟨hij, hjn, -, -, -, -, -, -⟩ := mem_find_eligible_merge_pairs.mp hmem
      have hm := maxIdx_lt hmx
      unfold acceptOrReject at h
      by_cases hacc : st.variation <
          (calcvariation cfg st.new_walker_weights (specCopies st i j m) d).1
      · rw [if_pos hacc] at h
        simp only [Prod.mk.injEq] at h
        rw [← h.1]
        exact acceptMove_balance _ hwf hbal (Nat.ne_of_lt hij) (by omega) hjn hm
      · rw [if_neg hacc] at h
        simp only [Prod.mk.injEq] at h
        rw [← h.1]
        exact ⟨hwf, hbal⟩

/-- Loop version of balance preservation, for any fuel. -/
theorem decideLoop_preserves_balance {cfg : RevoConfig} {d : ℕ → ℕ → ℚ}
    {rng : ℕ → ℚ} :
    ∀ (fuel : ℕ) (st st' : DecideState),
      StateWf st → groupCloneBalanced st →
      decideLoop cfg d rng fuel st = .ok st' →
      StateWf st' ∧ groupCloneBalanced st' := by
  intro fuel
  induction fuel with
  | zero =>
    intro st st' hwf hbal h
    simp only [decideLoop] at h
    injection h with h
    exact h ▸ ⟨hwf, hbal⟩
  | succ fuel ih =>
    intro st st' hwf hbal h
    simp only [decideLoop] at h
    cases hstep : decideStep cfg d rng st with
    | error e => rw [hstep] at h; exact absurd h (by simp)
    | ok p =>
      obtain ⟨st₁, cont⟩ := p
      rw [hstep] at h
      obtain ⟨hwf₁, hbal₁⟩ := decideStep_preserves_balance hwf hbal hstep
      cases cont with
      | false =>
        injection h with h
        exact h ▸ ⟨hwf₁, hbal₁⟩
      | true =>
        exact ih _ _ hwf₁ hbal₁ h

/-- C10: the number of indices held across all merge groups always equals the
sum of the clone counters — it holds in the initial scratch state, it is
preserved by every loop pass (each accepted move squashes exactly one walker
and books exactly one clone), and it holds for the state `decide` returns. -/
theorem decide_groups_clones_balance (cfg : RevoConfig) (w c : List ℚ)
    (d : ℕ → ℕ → ℚ) (rng : ℕ → ℚ) :
    (StateWf (decideInit cfg w c d) ∧ groupCloneBalanced (decideInit cfg w c d)) ∧
    (∀ st st' cont, StateWf st → groupCloneBalanced st →
      decideStep cfg d rng st = .ok (st', cont) →
      StateWf st' ∧ groupCloneBalanced st') ∧
    (∀ st vfin, decide cfg w c d rng = .ok (st, vfin) → groupCloneBalanced st) := by
  have hinit : StateWf (decideInit cfg w c d) ∧ groupCloneBalanced (decideInit cfg w c d) := by
    constructor
    · constructor <;> simp [decideInit]
    · unfold groupCloneBalanced
      simp [decideInit, List.map_replicate]
  refine ⟨hinit, fun st st' cont hwf hbal h => decideStep_preserves_balance hwf hbal h, ?_⟩
  intro st vfin h
  unfold decide at h
  cases hl : decideLoop cfg d rng (w.length + 1) (decideInit cfg w c d) with
  | error e => rw [hl] at h; exact absurd h (by simp)
  | ok st₁ =>
    rw [hl] at h
    injection h with h
    simp only [Prod.mk.injEq] at h
    exact h.1 ▸ (decideLoop_preserves_balance _ _ _ hinit.1 hinit.2 hl).2

theorem decide_groups_clones_balance_witness :
    groupCloneBalanced ((decide cfgA wA [1, 1, 1] dA rngA).toOption.getD default).1 :=
  (decide_groups_clones_balance cfgA wA [1, 1, 1] dA rngA).2.2 _ _
    (by with_unfolding_all rfl)

/-! ### The variation calculator as a sum over pairs -/

theorem list_range_map_sum {M : Type} [AddCommMonoid M] (f : ℕ → M) :
    ∀ n : ℕ, ((List.range n).map f).sum = ∑ i ∈ Finset.range n, f i := by
  intro n
  induction n with
  | zero => simp
  | succ n ih =>
    rw [List.range_succ, List.map_append, List.sum_append, Finset.sum_range_succ, ih]
    simp

theorem list_range'_map_sum {M : Type} [AddCommMonoid M] (f : ℕ → M) :
    ∀ (k s : ℕ), ((List.range' s k).map f).sum = ∑ j ∈ Finset.Ico s (s + k), f j := by
  intro k
  induction k with
  | zero => intro s; simp
  | succ k ih =>
    intro s
    rw [List.range'_succ, List.map_cons, List.sum_cons, ih (s + 1)]
    have hb : s + 1 + k = s + (k + 1) := by omega
    rw [hb]
    conv_rhs => rw [Finset.sum_eq_sum_Ico_succ_bot (show s < s + (k + 1) by omega) f]

/-- The scalar accumulated by the inner loop of `_calcvariation`. -/
theorem innerVar_fst (cfg : RevoConfig) (nov : ℕ → ℚ) (c : List ℚ)
    (d : ℕ → ℕ → ℚ) (i : ℕ) :
    ∀ (js : List ℕ) (acc : ℚ × (ℕ → ℚ)),
      (innerVar cfg nov c d i js acc).1 =
        acc.1 + (js.map (fun j => if 0 < c.getD j 0 then
          partialVariation cfg nov d i j * c.getD i 0 * c.getD j 0 else 0)).sum := by
  intro js
  induction js with
  | nil => intro acc; simp [innerVar]
  | cons j js ih =>
    intro acc
    by_cases hj : 0 < c.getD j 0
    · simp only [innerVar, if_pos hj, List.map_cons, List.sum_cons]
      rw [ih]
      dsimp only
      ring
    · simp only [innerVar, if_neg hj, List.map_cons, List.sum_cons]
      rw [ih]
      ring

/-- The per-walker contributions accumulated by the inner loop of
`_calcvariation`. -/
theorem innerVar_snd (cfg : RevoConfig) (nov : ℕ → ℚ) (c : List ℚ)
    (d : ℕ → ℕ → ℚ) (i : ℕ) :
    ∀ (js : List ℕ) (acc : ℚ × (ℕ → ℚ)) (k : ℕ), i ∉ js →
      (innerVar cfg nov c d i js acc).2 k =
        acc.2 k + (js.map (fun j => if 0 < c.getD j 0 then
          (if k = i then partialVariation cfg nov d i j * c.getD j 0
           else if k = j then partialVariation cfg nov d i j * c.getD i 0
           else 0) else 0)).sum := by
  intro js
  induction js with
  | nil => intro acc k _; simp [innerVar]
  | cons j js ih =>
    intro acc k hnot
    have hij : i ≠ j := fun he => hnot (he ▸ List.mem_cons_self _ _)
    have hnotin : i ∉ js := fun h => hnot (List.mem_cons_of_mem _ h)
    by_cases hj : 0 < c.getD j 0
    · simp only [innerVar, if_pos hj, List.map_cons, List.sum_cons]
      rw [ih _ _ hnotin]
      by_cases hki : k = i
      · subst hki
        simp only [if_neg hij, if_pos rfl]
        simp [hij]
        ring
      · by_cases hkj : k = j
        · subst hkj
          simp [Ne.symm hij, hki]
          ring
        · simp [hki, hkj]
    · simp only [innerVar, if_neg hj, List.map_cons, List.sum_cons]
      rw [ih _ _ hnotin]
      simp

/-- The scalar accumulated by the outer loop of `_calcvariation`. -/
theorem outerVar_fst (cfg : RevoConfig) (nov : ℕ → ℚ) (c : List ℚ)
    (d : ℕ → ℕ → ℚ) (n : ℕ) :
    ∀ (is : List ℕ) (acc : ℚ × (ℕ → ℚ)),
      (outerVar cfg nov c d n is acc).1 =
        acc.1 + (is.map (fun i => if 0 < c.getD i 0 then
          ((List.range' (i + 1) (n - (i + 1))).map (fun j => if 0 < c.getD j 0 then
            partialVariation cfg nov d i j * c.getD i 0 * c.getD j 0 else 0)).sum
          else 0)).sum := by
  intro is
  induction is with
  | nil => intro acc; simp [outerVar]
  | cons i is ih =>
    intro acc
    by_cases hi : 0 < c.getD i 0
    · simp only [outerVar, if_pos hi, List.map_cons, List.sum_cons]
      rw [ih, innerVar_fst]
      ring
    · simp only [outerVar, if_neg hi, List.map_cons, List.sum_cons]
      rw [ih]
      simp

/-- The per-walker contributions accumulated by the outer loop of
`_calcvariation`.  The inner loop of pass `i` runs over `range(i+1, n)`,
which never contains `i` itself. -/
theorem outerVar_snd (cfg : RevoConfig) (nov : ℕ → ℚ) (c : List ℚ)
    (d : ℕ → ℕ → ℚ) (n : ℕ) :
    ∀ (is : List ℕ) (acc : ℚ × (ℕ → ℚ)) (k : ℕ),
      (outerVar cfg nov c d n is acc).2 k =
        acc.2 k + (is.map (fun i => if 0 < c.getD i 0 then
          ((List.range' (i + 1) (n - (i + 1))).map (fun j => if 0 < c.getD j 0 then
            (if k = i then partialVariation cfg nov d i j * c.getD j 0
             else if k = j then partialVariation cfg nov d i j * c.getD i 0
             else 0) else 0)).sum
          else 0)).sum := by
  intro is
  induction is with
  | nil => intro acc k; simp [outerVar]
  | cons i is ih =>
    intro acc k
    have hnot : i ∉ List.range' (i + 1) (n - (i + 1)) := by
      intro h
      have := List.mem_range'_1.mp h
      omega
    by_cases hi : 0 < c.getD i 0
    · simp only [outerVar, if_pos hi, List.map_cons, List.sum_cons]
      rw [ih, innerVar_snd _ _ _ _ _ _ _ _ hnot]
      ring
    · simp only [outerVar, if_neg hi, List.map_cons, List.sum_cons]
      rw [ih]
      simp

/-- Conversion of the double loop's list sums into the double `Finset` sum
over all ordered pairs below the walker count. -/
theorem fold_pair_sum (c : List ℚ) (t : ℕ → ℕ → ℚ) (n : ℕ) :
    ((List.range (n - 1)).map (fun i => if 0 < c.getD i 0 then
      ((List.range' (i + 1) (n - (i + 1))).map (fun j => if 0 < c.getD j 0 then
        t i j else 0)).sum
      else 0)).sum =
    ∑ i ∈ Finset.range n, ∑ j ∈ Finset.range n,
      if i < j ∧ 0 < c.getD i 0 ∧ 0 < c.getD j 0 then t i j else 0 := by
  rw [list_range_map_sum]
  have hterm : ∀ i ∈ Finset.range (n - 1),
      (if 0 < c.getD i 0 then
        ((List.range' (i + 1) (n - (i + 1))).map (fun j => if 0 < c.getD j 0 then
          t i j else 0)).sum
        else 0) =
      ∑ j ∈ Finset.range n, if i < j ∧ 0 < c.getD i 0 ∧ 0 < c.getD j 0 then t i j else 0 := by
    intro i hi
    have hin : i < n - 1 := Finset.mem_range.mp hi
    rw [list_range'_map_sum]
    have hico : i + 1 + (n - (i + 1)) = n := by omega
    rw [hico]
    by_cases hci : 0 < c.getD i 0
    · rw [if_pos hci]
      have hfil : Finset.Ico (i + 1) n = (Finset.range n).filter (fun j => i < j) := by
        ext j
        simp only [Finset.mem_Ico, Finset.mem_filter, Finset.mem_range]
        omega
      rw [hfil, Finset.sum_filter]
      refine Finset.sum_congr rfl ?_
      intro j hj
      by_cases hij : i < j
      · rw [if_pos hij]
        by_cases hcj : 0 < c.getD j 0
        · rw [if_pos hcj, if_pos ⟨hij, hci, hcj⟩]
        · rw [if_neg hcj, if_neg (fun hc => hcj hc.2.2)]
      · rw [if_neg hij, if_neg (fun hc => hij hc.1)]
    · rw [if_neg hci]
      symm
      refine Finset.sum_eq_zero ?_
      intro j hj
      rw [if_neg]
      rintro ⟨-, h, -⟩
      exact hci h
  rw [Finset.sum_congr rfl hterm]
  cases n with
  | zero => simp
  | succ nm =>
    simp only [Nat.succ_sub_one]
    rw [Finset.sum_range_succ]
    have hlast : (∑ j ∈ Finset.range (nm + 1),
        if nm < j ∧ 0 < c.getD nm 0 ∧ 0 < c.getD j 0 then t nm j else 0) = 0 := by
      refine Finset.sum_eq_zero ?_
      intro j hj
      rw [if_neg]
      rintro ⟨h1, -, -⟩
      exact absurd (Finset.mem_range.mp hj) (by omega)
    rw [hlast, add_zero]

/-- C7: `_calcvariation` returns exactly the sum, over every ordered pair
`(i, j)` with `i < j` below the walker count and both copy counts positive, of
`partial = (d[i][j]/char_dist)^dist_exponent · φ_i · φ_j` times
`copies[i]·copies[j]` for the scalar, and contributes `partial·copies[j]` to
`Vi[i]` and `partial·copies[i]` to `Vi[j]`; pairs with a non-positive copy
count contribute nothing. -/
theorem calcvariation_spec (cfg : RevoConfig) (w c : List ℚ) (d : ℕ → ℕ → ℚ) :
    ((calcvariation cfg w c d).1 =
      ∑ i ∈ Finset.range w.length, ∑ j ∈ Finset.range w.length,
        if i < j ∧ 0 < c.getD i 0 ∧ 0 < c.getD j 0 then
          ((d i j / cfg.char_dist) ^ cfg.dist_exponent) *
            novelty cfg (w.getD i 0) (c.getD i 0) *
            novelty cfg (w.getD j 0) (c.getD j 0) *
            c.getD i 0 * c.getD j 0
        else 0) ∧
    ∀ k : ℕ, (calcvariation cfg w c d).2 k =
      ∑ i ∈ Finset.range w.length, ∑ j ∈ Finset.range w.length,
        if i < j ∧ 0 < c.getD i 0 ∧ 0 < c.getD j 0 then
          (if k = i then
            ((d i j / cfg.char_dist) ^ cfg.dist_exponent) *
              novelty cfg (w.getD i 0) (c.getD i 0) *
              novelty cfg (w.getD j 0) (c.getD j 0) * c.getD j 0
           else if k = j then
            ((d i j / cfg.char_dist) ^ cfg.dist_exponent) *
              novelty cfg (w.getD i 0) (c.getD i 0) *
              novelty cfg (w.getD j 0) (c.getD j 0) * c.getD i 0
           else 0)
        else 0 := by
  constructor
  · show (outerVar cfg (fun i => novelty cfg (w.getD i 0) (c.getD i 0)) c d w.length
      (List.range (w.length - 1)) (0, fun _ => 0)).1 = _
    rw [outerVar_fst, fold_pair_sum c
      (fun i j => partialVariation cfg (fun a => novelty cfg (w.getD a 0) (c.getD a 0)) d i j *
        c.getD i 0 * c.getD j 0) w.length]
    rw [zero_add]
    rfl
  · intro k
    show (outerVar cfg (fun i => novelty cfg (w.getD i 0) (c.getD i 0)) c d w.length
      (List.range (w.length - 1)) (0, fun _ => 0)).2 k = _
    rw [outerVar_snd, fold_pair_sum c
      (fun i j => if k = i then
          partialVariation cfg (fun a => novelty cfg (w.getD a 0) (c.getD a 0)) d i j * c.getD j 0
        else if k = j then
          partialVariation cfg (fun a => novelty cfg (w.getD a 0) (c.getD a 0)) d i j * c.getD i 0
        else 0) w.length]
    rw [zero_add]
    rfl

end Revo
